import Mathlib

/-!
# Verification of the `stl_ios_utilities` delimited-field scanners

Shallow embedding of the two character-scanning engines of the
`stl_ios_utilities` C++ library:

* `FieldParser::parse_fields` (src/field_parser.cc): reads a requested
  number of delimiter-separated fields from a stream, with terminator and
  masked character sets, per-index field transforms, and quota enforcement.
* `DelimitedRowParser::parse_row` (src/delimited_row_parser.cc): reads one
  newline-terminated row with a single delimiter character and min/max
  field-count enforcement with truncation.

The character stream is modelled as a `List Char` (the characters still to
be read); `std::istream::get` failing corresponds to the empty list.
`std::string` values are modelled as `List Char`, the caller-owned
`std::vector<std::string>` output buffer as `List (List Char)`, and the
`std::unordered_map<int, std::function<void(std::string*)>>` transform
registry as a function `Int → Option (List Char → List Char)`.

A C++ `throw` is modelled by an error result that carries the stream
position where reading stopped and the value the caller-owned output
buffer holds at that point (the source never writes to `*fields` /
`*row` before its final assignment, so every throw site leaves the
original buffer).
-/

namespace StlIosUtilities

/-- The exception types thrown by the library (include/exceptions.h). -/
inductive ParseError where
  | InvalidArgument
  | EmptyField
  | MissingFields
  | UnexpectedFields
deriving DecidableEq

/-- Outcome of one scan call: the remaining stream and the contents of the
caller-owned output buffer, either on normal return (`ok`) or after a
thrown exception (`err`). -/
inductive ParseResult where
  | ok (stream : List Char) (buffer : List (List Char)) : ParseResult
  | err (e : ParseError) (stream : List Char) (buffer : List (List Char)) : ParseResult
deriving DecidableEq

/-- Apply the transform registered for field index `i`, if any
(`field_parsers.count(i) > 0 ? field_parsers.at(i)(field) : field`). -/
def applyParsers (fps : Int → Option (List Char → List Char)) (i : Int)
    (field : List Char) : List Char :=
  match fps i with
  | some g => g field
  | none => field

/-- Configuration of `FieldParser` (include/field_parser.h data members). -/
structure FieldParser where
  delimiters : List Char
  terminators : List Char
  masked : List Char
  enforce_field_number : Bool
  ignore_underfull_data : Bool
  field_parsers : Int → Option (List Char → List Char)

/-- The default-constructed `FieldParser`: `delimiters_{'\t'}`,
`terminators_{'\n'}`, empty `masked_`, both flags `true`, no transforms. -/
def defaultFieldParser : FieldParser :=
  ⟨['\t'], ['\n'], [], true, true, fun _ => none⟩

/-- The anonymous-namespace helper `process_field` of field_parser.cc:
throws `EmptyField` on a zero-length buffer, otherwise applies the
transform registered for `field_count` (if any) and appends the field. -/
def process_field (fps : Int → Option (List Char → List Char))
    (field : List Char) (fields : List (List Char)) (field_count : Int) :
    Except ParseError (List (List Char)) :=
  if field.length = 0 then
    .error .EmptyField
  else
    .ok (fields ++ [applyParsers fps field_count field])

/-- The `while (is->get(c))` loop of `FieldParser::parse_fields`.
Returns the remaining stream together with the unfinalized trailing
buffer, the temporary field list and the field count; an error carries
the stream position at the throw. -/
def FieldParser.parseLoop (p : FieldParser) (requested : Int) :
    List Char → List Char → List (List Char) → Int →
    Except (ParseError × List Char)
      (List Char × List Char × List (List Char) × Int)
  | [], field, tmp, count => .ok ([], field, tmp, count)
  | c :: cs, field, tmp, count =>
    if c ∈ p.terminators then
      .ok (cs, field, tmp, count)
    else if c ∈ p.delimiters then
      match process_field p.field_parsers field tmp (count + 1) with
      | .error e => .error (e, cs)
      | .ok tmp2 =>
        if count + 1 = requested then .ok (cs, [], tmp2, count + 1)
        else p.parseLoop requested cs [] tmp2 (count + 1)
    else if c ∈ p.masked then
      p.parseLoop requested cs field tmp count
    else
      p.parseLoop requested cs (field ++ [c]) tmp count

/-- The two post-loop policy conditionals of `FieldParser::parse_fields`:
`MissingFields` under enforcement, otherwise store `tmp` into the output
buffer exactly when the quota was met or underfull data is not ignored. -/
def FieldParser.quotaCheck (p : FieldParser) (requested : Int)
    (fields : List (List Char)) (rest : List Char) (tmp : List (List Char))
    (count : Int) : ParseResult :=
  if count < requested ∧ p.enforce_field_number = true then
    .err .MissingFields rest fields
  else if (count < requested ∧ p.ignore_underfull_data = false)
      ∨ count = requested then
    .ok rest tmp
  else
    .ok rest fields

/-- Post-loop part of `FieldParser::parse_fields`: finalize the trailing
field when the quota was not met inside the loop, then run the policy
checks. -/
def FieldParser.postLoop (p : FieldParser) (requested : Int)
    (fields : List (List Char)) (rest field : List Char)
    (tmp : List (List Char)) (count : Int) : ParseResult :=
  if count < requested then
    match process_field p.field_parsers field tmp (count + 1) with
    | .error e => .err e rest fields
    | .ok tmp2 => p.quotaCheck requested fields rest tmp2 (count + 1)
  else
    p.quotaCheck requested fields rest tmp count

/-- Dispatch on the outcome of the scan loop: a thrown exception
propagates (leaving the caller's buffer), a normal exit runs the
post-loop finalization and policy checks. -/
def FieldParser.afterLoop (p : FieldParser) (requested : Int)
    (fields : List (List Char)) :
    Except (ParseError × List Char)
      (List Char × List Char × List (List Char) × Int) → ParseResult
  | .error (e, rest) => .err e rest fields
  | .ok (rest, field, tmp, count) =>
    p.postLoop requested fields rest field tmp count

/-- `FieldParser::parse_fields(is, fields, requested_field_number)`
(field_parser.cc): rejects a non-positive request, runs the scan loop
from an empty accumulated field, empty temporary list and field count 0,
then finalizes and applies the quota policy. -/
def FieldParser.parse_fields (p : FieldParser) (input : List Char)
    (fields : List (List Char)) (requested_field_number : Int) : ParseResult :=
  if requested_field_number < 1 then
    .err .InvalidArgument input fields
  else
    p.afterLoop requested_field_number fields
      (p.parseLoop requested_field_number input [] [] 0)

/-- `is_overfilled` of delimited_row_parser.cc. -/
def is_overfilled (max_fields field_count : Int) : Bool :=
  max_fields > 0 && field_count > max_fields

/-- Configuration of `DelimitedRowParser`
(include/delimited_row_parser.h data members). -/
structure DelimitedRowParser where
  delimiter : Char
  min_fields : Int
  enforce_min_fields : Bool
  ignore_underfull_row : Bool
  max_fields : Int
  enforce_max_fields : Bool
  ignore_overfull_row : Bool
  field_parsers : Int → Option (List Char → List Char)

/-- The default-constructed `DelimitedRowParser`: `delimiter_{'\t'}`,
`min_fields_{0}`, `enforce_min_fields_{true}`, `ignore_underfull_row_{true}`,
`max_fields_{0}`, `enforce_max_fields_{true}`, `ignore_overfull_row_{true}`. -/
def defaultRowParser : DelimitedRowParser :=
  ⟨'\t', 0, true, true, 0, true, true, fun _ => none⟩

/-- The anonymous-namespace helper `process_field` of
delimited_row_parser.cc: when the row is not overfilled, appends the
(possibly transformed) field to the row and clears the field buffer;
otherwise leaves both untouched. Returns the new field buffer and row. -/
def row_process_field (fps : Int → Option (List Char → List Char))
    (max_fields : Int) (field : List Char) (row : List (List Char))
    (field_count : Int) : List Char × List (List Char) :=
  if is_overfilled max_fields field_count then
    (field, row)
  else
    ([], row ++ [applyParsers fps field_count field])

/-- The `while (is->get(c))` loop of `DelimitedRowParser::parse_row`:
breaks on `'\n'`, finalizes on the delimiter (throwing
`UnexpectedFields` when the incremented count overfills an enforced
maximum), and appends ordinary characters only while not overfilled. -/
def DelimitedRowParser.parseLoop (p : DelimitedRowParser) :
    List Char → List Char → List (List Char) → Int →
    Except (ParseError × List Char)
      (List Char × List Char × List (List Char) × Int)
  | [], field, tmp, count => .ok ([], field, tmp, count)
  | c :: cs, field, tmp, count =>
    if c = '\n' then
      .ok (cs, field, tmp, count)
    else if c = p.delimiter then
      match row_process_field p.field_parsers p.max_fields field tmp count with
      | (field2, tmp2) =>
        if is_overfilled p.max_fields (count + 1) && p.enforce_max_fields then
          .error (.UnexpectedFields, cs)
        else
          p.parseLoop cs field2 tmp2 (count + 1)
    else
      if is_overfilled p.max_fields count then
        p.parseLoop cs field tmp count
      else
        p.parseLoop cs (field ++ [c]) tmp count

/-- The post-loop min/max bound checks of `DelimitedRowParser::parse_row`:
throw under an enforced violated bound, silently discard when the
corresponding ignore flag tolerates the violation, otherwise finalize the
last field and store the row. -/
def DelimitedRowParser.boundsCheck (p : DelimitedRowParser)
    (row : List (List Char)) (rest field : List Char)
    (tmp : List (List Char)) (count : Int) : ParseResult :=
  if count < p.min_fields ∧ p.enforce_min_fields = true then
    .err .MissingFields rest row
  else if is_overfilled p.max_fields count ∧ p.enforce_max_fields = true then
    .err .UnexpectedFields rest row
  else if (is_overfilled p.max_fields count = false
        ∨ p.ignore_overfull_row = false)
      ∧ (p.min_fields ≤ count ∨ p.ignore_underfull_row = false) then
    .ok rest (row_process_field p.field_parsers p.max_fields field tmp count).2
  else
    .ok rest row

/-- Dispatch on the outcome of the row scan loop: a thrown exception
propagates (leaving the caller's buffer), a normal exit runs the bound
checks. -/
def DelimitedRowParser.afterLoop (p : DelimitedRowParser)
    (row : List (List Char)) :
    Except (ParseError × List Char)
      (List Char × List Char × List (List Char) × Int) → ParseResult
  | .error (e, rest) => .err e rest row
  | .ok (rest, field, tmp, count) => p.boundsCheck row rest field tmp count

/-- `DelimitedRowParser::parse_row(is, row)` (delimited_row_parser.cc):
runs the scan loop starting at field count 1, then checks the min/max
bounds and either throws, silently discards, or finalizes the last field
and stores the row. -/
def DelimitedRowParser.parse_row (p : DelimitedRowParser) (input : List Char)
    (row : List (List Char)) : ParseResult :=
  p.afterLoop row (p.parseLoop input [] [] 1)

/-- A character that plays no special role for `p`: it is neither a
delimiter, nor a terminator, nor masked, so the scan loop appends it to
the current field buffer. -/
def ordChar (p : FieldParser) (c : Char) : Prop :=
  c ∉ p.delimiters ∧ c ∉ p.terminators ∧ c ∉ p.masked

instance (p : FieldParser) (c : Char) : Decidable (ordChar p c) :=
  inferInstanceAs (Decidable (_ ∧ _ ∧ _))

/-- The canonical stream holding the given fields separated by the single
delimiter character `d` (no trailing separator). -/
def joinWith (d : Char) : List (List Char) → List Char
  | [] => []
  | [f] => f
  | f :: fs => f ++ d :: joinWith d fs

/-- The canonical stream holding the given fields, each followed by the
delimiter character `d`, and then the continuation `rest`. -/
def joinSep (d : Char) (rest : List Char) : List (List Char) → List Char
  | [] => rest
  | f :: fs => f ++ d :: joinSep d rest fs

/-- The expected output for a list of fields whose first field has
1-based index `i`: each field gets the transform registered for its
index applied, or passes through unchanged. -/
def transformFrom (fps : Int → Option (List Char → List Char)) (i : Int) :
    List (List Char) → List (List Char)
  | [] => []
  | f :: fs => applyParsers fps i f :: transformFrom fps (i + 1) fs

/-- `true` exactly when `c` is not in `p`'s masked set; the predicate a
mask-free run of the scanner would use to pre-drop masked characters. -/
def unmasked (p : FieldParser) (c : Char) : Bool :=
  decide (c ∉ p.masked)

/-- Transport a parse outcome along a transformation of the remaining
stream, leaving the error kind and the buffer untouched. -/
def filterStream (g : List Char → List Char) : ParseResult → ParseResult
  | .ok s b => .ok (g s) b
  | .err e s b => .err e (g s) b

/-- Transport a loop outcome along a transformation of the remaining
stream. -/
def exceptFilter (g : List Char → List Char) :
    Except (ParseError × List Char)
      (List Char × List Char × List (List Char) × Int) →
    Except (ParseError × List Char)
      (List Char × List Char × List (List Char) × Int)
  | .error (e, r) => .error (e, g r)
  | .ok (r, f, t, c) => .ok (g r, f, t, c)

/-- Comma-delimited field parser with default flags and no transforms. -/
def pComma : FieldParser := ⟨[','], ['\n'], [], true, true, fun _ => none⟩

/-- Comma-delimited field parser with a transform registered at index 1
that appends the characters `_1`. -/
def pW : FieldParser :=
  ⟨[','], ['\n'], [], true, true,
    fun i => if i = 1 then some (fun f => f ++ ['_', '1']) else none⟩

/-- Comma-delimited field parser whose masked set overlaps its delimiter
set (the configuration the data-model invariant forbids). -/
def pMask : FieldParser := ⟨[','], ['\n'], [','], true, true, fun _ => none⟩

/-- Comma-delimited field parser masking the character `#`. -/
def pHash : FieldParser := ⟨[','], ['\n'], ['#'], true, true, fun _ => none⟩

/-- Row parser with delimiter `','`, `max_fields = 2` and enforced
maximum. -/
def q3 : DelimitedRowParser := ⟨',', 0, true, true, 2, true, true, fun _ => none⟩

/-- Row parser of the truncation example: delimiter `','`,
`min_fields = 3`, `max_fields = 3`, `enforce_max_fields = false`,
`ignore_overfull_row = false`. -/
def p4 : DelimitedRowParser := ⟨',', 3, true, true, 3, false, false, fun _ => none⟩

theorem transformFrom_append (fps : Int → Option (List Char → List Char))
    (ys : List (List Char)) :
    ∀ (xs : List (List Char)) (i : Int),
    transformFrom fps i (xs ++ ys)
      = transformFrom fps i xs ++ transformFrom fps (i + (xs.length : Int)) ys := by
  intro xs
  induction xs with
  | nil => intro i; simp [transformFrom]
  | cons x xs ih =>
    intro i
    have e1 : i + 1 + (xs.length : Int) = i + ((x :: xs).length : Int) := by
      push_cast [List.length_cons]
      ring
    rw [List.cons_append, transformFrom, transformFrom, ih (i + 1), e1,
      List.cons_append]

theorem joinWith_concat (d : Char) (tail : List Char) :
    ∀ (init : List (List Char)) (f : List Char),
    joinWith d (init ++ [f]) ++ tail = joinSep d (f ++ tail) init := by
  intro init
  induction init with
  | nil => intro f; simp [joinWith, joinSep]
  | cons g init ih =>
    intro f
    have hne : init ++ [f] ≠ [] := by simp
    obtain ⟨h, t, ht⟩ : ∃ h t, init ++ [f] = h :: t := by
      cases he : init ++ [f] with
      | nil => exact absurd he hne
      | cons h t => exact ⟨h, t, rfl⟩
    calc joinWith d (g :: (init ++ [f])) ++ tail
        = (g ++ d :: joinWith d (init ++ [f])) ++ tail := by
          rw [ht]
          simp [joinWith]
      _ = g ++ d :: (joinWith d (init ++ [f]) ++ tail) := by simp
      _ = g ++ d :: joinSep d (f ++ tail) init := by rw [ih]
      _ = joinSep d (f ++ tail) (g :: init) := by simp [joinSep]

/-- Scanning a run of ordinary characters just accumulates them onto the
current field buffer. -/
theorem FieldParser.parseLoop_ordinary (p : FieldParser) (requested : Int) :
    ∀ (f : List Char), (∀ c ∈ f, ordChar p c) →
    ∀ (rest field : List Char) (tmp : List (List Char)) (count : Int),
    p.parseLoop requested (f ++ rest) field tmp count
      = p.parseLoop requested rest (field ++ f) tmp count := by
  intro f
  induction f with
  | nil =>
    intro _ rest field tmp count
    simp
  | cons c f ih =>
    intro hf rest field tmp count
    obtain ⟨h1, h2, h3⟩ := hf c (by simp)
    simp only [List.cons_append, FieldParser.parseLoop, List.append_eq]
    rw [if_neg h2, if_neg h1, if_neg h3,
      ih (fun c hc => hf c (by simp [hc])) rest (field ++ [c]) tmp count]
    simp

/-- Scanning a run of complete, non-empty, ordinary fields each followed
by a delimiter finalizes them in order (applying the registered
transforms) without reaching the quota. -/
theorem FieldParser.parseLoop_joinSep (p : FieldParser) (requested : Int)
    (d : Char) (hd : d ∈ p.delimiters) (hdt : d ∉ p.terminators) :
    ∀ (init : List (List Char)) (rest : List Char) (tmp : List (List Char))
      (count : Int),
    (∀ f ∈ init, f ≠ [] ∧ ∀ c ∈ f, ordChar p c) →
    count + (init.length : Int) < requested →
    p.parseLoop requested (joinSep d rest init) [] tmp count
      = p.parseLoop requested rest []
          (tmp ++ transformFrom p.field_parsers (count + 1) init)
          (count + (init.length : Int)) := by
  intro init
  induction init with
  | nil =>
    intro rest tmp count _ _
    simp [joinSep, transformFrom]
  | cons f init ih =>
    intro rest tmp count hfs hlt
    obtain ⟨hne, hord⟩ := hfs f (by simp)
    have hlt' : count + (init.length : Int) + 1 < requested := by
      push_cast [List.length_cons] at hlt
      omega
    have hlt1 : count + 1 + (init.length : Int) < requested := by omega
    have hcnt : count + 1 ≠ requested := by
      have h0 : (0 : Int) ≤ (init.length : Int) := Int.natCast_nonneg _
      omega
    have hflen : ¬(f.length = 0) := by
      simpa using hne
    calc p.parseLoop requested (joinSep d rest (f :: init)) [] tmp count
        = p.parseLoop requested (d :: joinSep d rest init) ([] ++ f) tmp count := by
          rw [joinSep, p.parseLoop_ordinary requested f hord]
      _ = p.parseLoop requested (joinSep d rest init) []
            (tmp ++ [applyParsers p.field_parsers (count + 1) f]) (count + 1) := by
          simp only [List.nil_append, FieldParser.parseLoop]
          rw [if_neg hdt, if_pos hd]
          simp [process_field, hflen, hcnt]
      _ = p.parseLoop requested rest []
            (tmp ++ transformFrom p.field_parsers (count + 1) (f :: init))
            (count + ((f :: init).length : Int)) := by
          rw [ih rest _ (count + 1) (fun g hg => hfs g (by simp [hg])) hlt1]
          have e1 : count + 1 + (init.length : Int)
              = count + ((f :: init).length : Int) := by
            push_cast [List.length_cons]
            ring
          rw [e1, transformFrom]
          simp

/-- Finalizing a non-empty trailing field that exactly meets the quota
stores the transformed field list. -/
theorem FieldParser.postLoop_exact (p : FieldParser) (requested : Int)
    (buf : List (List Char)) (rest fN : List Char) (tmp : List (List Char))
    (count : Int) (hc : count + 1 = requested) (hne : fN ≠ []) :
    p.postLoop requested buf rest fN tmp count
      = .ok rest (tmp ++ [applyParsers p.field_parsers (count + 1) fN]) := by
  have h1 : count < requested := by omega
  have hflen : ¬(fN.length = 0) := by simpa using hne
  simp [FieldParser.postLoop, FieldParser.quotaCheck, process_field, h1, hflen,
    hc]

/-- Finalizing a non-empty trailing field that still leaves the count
below the quota hands the incremented count to the quota policy. -/
theorem FieldParser.postLoop_under (p : FieldParser) (requested : Int)
    (buf : List (List Char)) (rest fN : List Char) (tmp : List (List Char))
    (count : Int) (hc : count + 1 < requested) (hne : fN ≠ []) :
    p.postLoop requested buf rest fN tmp count
      = p.quotaCheck requested buf rest
          (tmp ++ [applyParsers p.field_parsers (count + 1) fN]) (count + 1) := by
  have h1 : count < requested := by omega
  have hflen : ¬(fN.length = 0) := by simpa using hne
  simp [FieldParser.postLoop, process_field, h1, hflen]

/-- Finalizing an empty trailing field below the quota throws
`EmptyField`, before the quota policy is consulted. -/
theorem FieldParser.postLoop_emptyField (p : FieldParser) (requested : Int)
    (buf : List (List Char)) (rest : List Char) (tmp : List (List Char))
    (count : Int) (hc : count < requested) :
    p.postLoop requested buf rest [] tmp count = .err .EmptyField rest buf := by
  simp [FieldParser.postLoop, process_field, hc]

/-- Scanning a canonical stream of complete non-empty ordinary fields
followed by a trailing field and a terminator-or-eof tail: the loop exits
with the trailing field still buffered and all earlier fields finalized. -/
theorem FieldParser.parseLoop_canonical (p : FieldParser) (requested : Int)
    (d : Char) (init : List (List Char)) (fN : List Char) (tail : List Char)
    (hd : d ∈ p.delimiters) (hdt : d ∉ p.terminators)
    (hinit : ∀ f ∈ init, f ≠ [] ∧ ∀ c ∈ f, ordChar p c)
    (hNord : ∀ c ∈ fN, ordChar p c)
    (hlt : (init.length : Int) < requested)
    (htail : tail = [] ∨ ∃ t ts, t ∈ p.terminators ∧ tail = t :: ts) :
    p.parseLoop requested (joinSep d (fN ++ tail) init) [] [] 0
      = .ok (tail.tail, fN, transformFrom p.field_parsers 1 init,
          (init.length : Int)) := by
  rw [p.parseLoop_joinSep requested d hd hdt init (fN ++ tail) [] 0 hinit
    (by omega)]
  rw [p.parseLoop_ordinary requested fN hNord tail _ _ _]
  simp only [List.nil_append, zero_add]
  rcases htail with rfl | ⟨t, ts, ht, rfl⟩
  · simp [FieldParser.parseLoop]
  · simp [FieldParser.parseLoop, ht]

/-- C1: with exactly the requested number of delimiter-separated,
non-empty fields available before the next terminator or end-of-stream,
`FieldParser::parse_fields` overwrites the output buffer with exactly
those fields in order, each with its registered per-index transform
applied (1-based indices), or unchanged where none is registered. -/
theorem parse_fields_exact_quota (p : FieldParser) (d : Char)
    (fs : List (List Char)) (tail : List Char) (buf : List (List Char))
    (hd : d ∈ p.delimiters) (hdt : d ∉ p.terminators)
    (hfs : fs ≠ [])
    (hfields : ∀ f ∈ fs, f ≠ [] ∧ ∀ c ∈ f, ordChar p c)
    (htail : tail = [] ∨ ∃ t ts, t ∈ p.terminators ∧ tail = t :: ts) :
    p.parse_fields (joinWith d fs ++ tail) buf ((fs.length : Nat) : Int)
      = .ok tail.tail (transformFrom p.field_parsers 1 fs) := by
  obtain ⟨init, fN, rfl⟩ : ∃ init fN, fs = init ++ [fN] := by
    rcases List.eq_nil_or_concat fs with h | ⟨L, b, h⟩
    · exact absurd h hfs
    · exact ⟨L, b, by simpa [List.concat_eq_append] using h⟩
  obtain ⟨hNne, hNord⟩ := hfields fN (by simp)
  have hinit : ∀ f ∈ init, f ≠ [] ∧ ∀ c ∈ f, ordChar p c :=
    fun f hf => hfields f (by simp [hf])
  have hlen : (((init ++ [fN]).length : Nat) : Int) = (init.length : Int) + 1 := by
    push_cast [List.length_append, List.length_singleton]
    ring
  rw [FieldParser.parse_fields, joinWith_concat, hlen,
    if_neg (by have := Int.natCast_nonneg init.length; omega)]
  rw [p.parseLoop_canonical ((init.length : Int) + 1) d init fN tail hd hdt
    hinit hNord (by omega) htail]
  rw [FieldParser.afterLoop,
    p.postLoop_exact ((init.length : Int) + 1) buf tail.tail fN _
      (init.length : Int) rfl hNne]
  rw [transformFrom_append]
  have e1 : (1 : Int) + (init.length : Int) = (init.length : Int) + 1 := by
    ring
  rw [e1]
  simp [transformFrom]

/-- C6: a non-positive requested field quota fails immediately with
`InvalidArgument`, consuming no characters and leaving the output buffer
unmodified. -/
theorem parse_fields_invalid_argument (p : FieldParser) (input : List Char)
    (buf : List (List Char)) (requested : Int) (h : requested < 1) :
    p.parse_fields input buf requested = .err .InvalidArgument input buf := by
  rw [FieldParser.parse_fields, if_pos h]

/-- C9: for every configuration and every positive quota, a stream that
yields no characters (already exhausted, or starting with a terminator)
fails with `EmptyField`: the empty trailing buffer is finalized before
any quota-shortfall policy can apply, whatever the enforcement flags. -/
theorem parse_fields_no_data_empty_field (p : FieldParser) (input : List Char)
    (buf : List (List Char)) (requested : Int) (hreq : 1 ≤ requested)
    (hin : input = [] ∨ ∃ t ts, t ∈ p.terminators ∧ input = t :: ts) :
    p.parse_fields input buf requested = .err .EmptyField input.tail buf := by
  rw [FieldParser.parse_fields, if_neg (by omega)]
  rcases hin with rfl | ⟨t, ts, ht, rfl⟩
  · rw [show p.parseLoop requested [] [] [] 0 = .ok ([], [], [], 0) from rfl,
      FieldParser.afterLoop, p.postLoop_emptyField requested buf [] [] 0
        (by omega)]
    rfl
  · have hstep : p.parseLoop requested (t :: ts) [] [] 0 = .ok (ts, [], [], 0) := by
      simp [FieldParser.parseLoop, ht]
    rw [hstep, FieldParser.afterLoop,
      p.postLoop_emptyField requested buf ts [] 0 (by omega)]
    rfl

/-- C2: an underfull read (fewer completed fields than the requested
quota, all of them finalized successfully) obeys the policy matrix:
with `enforce_field_number` it fails with `MissingFields` leaving the
buffer unchanged; without it, `ignore_underfull_data` leaves the buffer
unchanged on success, and clearing both flags stores the short list. -/
theorem parse_fields_underfull (p : FieldParser) (d : Char)
    (fs : List (List Char)) (tail : List Char) (buf : List (List Char))
    (requested : Int)
    (hd : d ∈ p.delimiters) (hdt : d ∉ p.terminators)
    (hfs : fs ≠ [])
    (hfields : ∀ f ∈ fs, f ≠ [] ∧ ∀ c ∈ f, ordChar p c)
    (htail : tail = [] ∨ ∃ t ts, t ∈ p.terminators ∧ tail = t :: ts)
    (hlt : ((fs.length : Nat) : Int) < requested) :
    (p.enforce_field_number = true →
      p.parse_fields (joinWith d fs ++ tail) buf requested
        = .err .MissingFields tail.tail buf) ∧
    (p.enforce_field_number = false → p.ignore_underfull_data = true →
      p.parse_fields (joinWith d fs ++ tail) buf requested
        = .ok tail.tail buf) ∧
    (p.enforce_field_number = false → p.ignore_underfull_data = false →
      p.parse_fields (joinWith d fs ++ tail) buf requested
        = .ok tail.tail (transformFrom p.field_parsers 1 fs)) := by
  obtain ⟨init, fN, rfl⟩ : ∃ init fN, fs = init ++ [fN] := by
    rcases List.eq_nil_or_concat fs with h | ⟨L, b, h⟩
    · exact absurd h hfs
    · exact ⟨L, b, by simpa [List.concat_eq_append] using h⟩
  obtain ⟨hNne, hNord⟩ := hfields fN (by simp)
  have hinit : ∀ f ∈ init, f ≠ [] ∧ ∀ c ∈ f, ordChar p c :=
    fun f hf => hfields f (by simp [hf])
  have hlen : (((init ++ [fN]).length : Nat) : Int) = (init.length : Int) + 1 := by
    push_cast [List.length_append, List.length_singleton]
    ring
  rw [hlen] at hlt
  have hcast := Int.natCast_nonneg init.length
  have hmain : p.parse_fields (joinWith d (init ++ [fN]) ++ tail) buf requested
      = p.quotaCheck requested buf tail.tail
          (transformFrom p.field_parsers 1 (init ++ [fN]))
          ((init.length : Int) + 1) := by
    rw [FieldParser.parse_fields, joinWith_concat, if_neg (by omega)]
    rw [p.parseLoop_canonical requested d init fN tail hd hdt hinit hNord
      (by omega) htail]
    rw [FieldParser.afterLoop,
      p.postLoop_under requested buf tail.tail fN _ (init.length : Int)
        (by omega) hNne]
    rw [transformFrom_append]
    have e1 : (1 : Int) + (init.length : Int) = (init.length : Int) + 1 := by
      ring
    rw [e1]
    simp [transformFrom]
  have hne : ¬((init.length : Int) + 1 = requested) := by omega
  refine ⟨fun henf => ?_, fun henf hign => ?_, fun henf hign => ?_⟩
  · rw [hmain]
    simp [FieldParser.quotaCheck, henf, hlt]
  · rw [hmain]
    simp [FieldParser.quotaCheck, henf, hign, hne]
  · rw [hmain]
    simp [FieldParser.quotaCheck, henf, hign, hlt]

/-- C5: finalizing a zero-length field always throws `EmptyField`,
whether the empty field is exposed by a leading delimiter, a delimiter
right after another delimiter, a delimiter immediately before a
terminator, or end-of-stream after a delimiter (the post-loop trailing
finalization). -/
theorem parse_fields_empty_field (p : FieldParser) (d : Char)
    (init : List (List Char)) (tail : List Char) (buf : List (List Char))
    (requested : Int)
    (hd : d ∈ p.delimiters) (hdt : d ∉ p.terminators)
    (hinit : ∀ f ∈ init, f ≠ [] ∧ ∀ c ∈ f, ordChar p c)
    (hlt : ((init.length : Nat) : Int) < requested)
    (htail : tail = [] ∨ (∃ t ts, t ∈ p.terminators ∧ tail = t :: ts)
      ∨ ∃ d2 ts, d2 ∈ p.delimiters ∧ d2 ∉ p.terminators ∧ tail = d2 :: ts) :
    p.parse_fields (joinSep d tail init) buf requested
      = .err .EmptyField tail.tail buf := by
  have hcast := Int.natCast_nonneg init.length
  rw [FieldParser.parse_fields, if_neg (by omega)]
  rw [p.parseLoop_joinSep requested d hd hdt init tail [] 0 hinit (by omega)]
  simp only [List.nil_append, zero_add]
  rcases htail with rfl | ⟨t, ts, ht, rfl⟩ | ⟨d2, ts, hd2, hd2t, rfl⟩
  · rw [show p.parseLoop requested [] []
        (transformFrom p.field_parsers 1 init) (init.length : Int)
        = .ok ([], [], transformFrom p.field_parsers 1 init,
            (init.length : Int)) from ?_]
    · rw [FieldParser.afterLoop,
        p.postLoop_emptyField requested buf [] _ _ (by omega)]
      rfl
    · rfl
  · have hstep : p.parseLoop requested (t :: ts) []
        (transformFrom p.field_parsers 1 init) (init.length : Int)
        = .ok (ts, [], transformFrom p.field_parsers 1 init,
            (init.length : Int)) := by
      simp [FieldParser.parseLoop, ht]
    rw [hstep, FieldParser.afterLoop,
      p.postLoop_emptyField requested buf ts _ _ (by omega)]
    rfl
  · have hstep : p.parseLoop requested (d2 :: ts) []
        (transformFrom p.field_parsers 1 init) (init.length : Int)
        = .error (.EmptyField, ts) := by
      simp [FieldParser.parseLoop, hd2, hd2t, process_field]
    rw [hstep, FieldParser.afterLoop]
    rfl

theorem is_overfilled_eq_true (max count : Int) :
    is_overfilled max count = true ↔ 0 < max ∧ max < count := by
  simp [is_overfilled]

theorem is_overfilled_eq_false (max count : Int) :
    is_overfilled max count = false ↔ max ≤ 0 ∨ count ≤ max := by
  rw [← Bool.not_eq_true, is_overfilled_eq_true]
  omega

/-- Scanning towards the delimiter that pushes the running field count
over an enforced bounded maximum throws `UnexpectedFields` at exactly
that delimiter, with the stream positioned right after it. -/
theorem DelimitedRowParser.parseLoop_overfill (p : DelimitedRowParser)
    (post : List Char)
    (hmax : 0 < p.max_fields) (henf : p.enforce_max_fields = true)
    (hdn : p.delimiter ≠ '\n') :
    ∀ (pre field : List Char) (tmp : List (List Char)) (count : Int),
    '\n' ∉ pre →
    count + (pre.count p.delimiter : Int) = p.max_fields →
    p.parseLoop (pre ++ p.delimiter :: post) field tmp count
      = .error (.UnexpectedFields, post) := by
  intro pre
  induction pre with
  | nil =>
    intro field tmp count _ hcnt
    simp only [List.count_nil, Nat.cast_zero, add_zero] at hcnt
    have hov : is_overfilled p.max_fields (count + 1) = true := by
      rw [is_overfilled_eq_true]
      omega
    simp [DelimitedRowParser.parseLoop, hdn, hov, henf]
  | cons c pre ih =>
    intro field tmp count hnl hcnt
    have hc_nl : ¬(c = '\n') := fun h => hnl (by simp [h])
    have hnl' : '\n' ∉ pre := fun h => hnl (by simp [h])
    by_cases hc : c = p.delimiter
    · have hcnt' : count + 1 + (pre.count p.delimiter : Int) = p.max_fields := by
        subst hc
        rw [List.count_cons_self] at hcnt
        push_cast at hcnt
        omega
      have hov : is_overfilled p.max_fields (count + 1) = false := by
        rw [is_overfilled_eq_false]
        have := Int.natCast_nonneg (pre.count p.delimiter)
        omega
      simp only [List.cons_append, DelimitedRowParser.parseLoop, hc_nl,
        if_false, if_neg hc_nl, if_pos hc, hov, Bool.false_and, if_neg,
        Bool.false_eq_true, List.append_eq]
      exact ih _ _ (count + 1) hnl' hcnt'
    · have hcnt' : count + (pre.count p.delimiter : Int) = p.max_fields := by
        rw [List.count_cons_of_ne (fun h => hc h.symm)] at hcnt
        exact hcnt
      simp only [List.cons_append, DelimitedRowParser.parseLoop,
        if_neg hc_nl, if_neg hc]
      split
      · exact ih _ _ count hnl' hcnt'
      · exact ih _ _ count hnl' hcnt'

/-- C3: with a bounded `max_fields` and `enforce_max_fields` set,
`DelimitedRowParser::parse_row` fails with `UnexpectedFields` immediately
at the delimiter that pushes the running field count over `max_fields`:
the output buffer is unmodified and the stream is positioned right after
that delimiter (characters already consumed are not un-read). -/
theorem parse_row_overfull_throws (q : DelimitedRowParser)
    (pre post : List Char) (buf : List (List Char))
    (hmax : 0 < q.max_fields) (henf : q.enforce_max_fields = true)
    (hdn : q.delimiter ≠ '\n') (hnl : '\n' ∉ pre)
    (hcnt : (pre.count q.delimiter : Int) = q.max_fields - 1) :
    q.parse_row (pre ++ q.delimiter :: post) buf
      = .err .UnexpectedFields post buf := by
  rw [DelimitedRowParser.parse_row,
    q.parseLoop_overfill post hmax henf hdn pre [] [] 1 hnl (by omega)]
  rfl

/-- C4: the bounded row scanner configured with delimiter `','`,
`min_fields = 3`, `max_fields = 3`, `enforce_max_fields = false` and
`ignore_overfull_row = false` scans the row
`"one,two,three,four,five"` successfully and stores exactly
`["one", "two", "three"]`; the characters of `"four"` and `"five"` are
silently dropped. -/
theorem parse_row_truncation_example (buf : List (List Char)) :
    p4.parse_row
      ['o', 'n', 'e', ',', 't', 'w', 'o', ',', 't', 'h', 'r', 'e', 'e', ',',
       'f', 'o', 'u', 'r', ',', 'f', 'i', 'v', 'e'] buf
      = .ok [] [['o', 'n', 'e'], ['t', 'w', 'o'], ['t', 'h', 'r', 'e', 'e']] :=
  rfl

/-- The row-scan loop keeps the running field count at least 1 and, once
the count exceeds 1, a non-empty temporary row. -/
theorem DelimitedRowParser.parseLoop_invariant (p : DelimitedRowParser) :
    ∀ (input field : List Char) (tmp : List (List Char)) (count : Int)
      (rest field2 : List Char) (tmp2 : List (List Char)) (count2 : Int),
    p.parseLoop input field tmp count = .ok (rest, field2, tmp2, count2) →
    1 ≤ count → (2 ≤ count → tmp ≠ []) →
    1 ≤ count2 ∧ (2 ≤ count2 → tmp2 ≠ []) := by
  intro input
  induction input with
  | nil =>
    intro field tmp count rest field2 tmp2 count2 h h1 h2
    simp only [DelimitedRowParser.parseLoop, Except.ok.injEq,
      Prod.mk.injEq] at h
    obtain ⟨-, -, rfl, rfl⟩ := h
    exact ⟨h1, h2⟩
  | cons c cs ih =>
    intro field tmp count rest field2 tmp2 count2 h h1 h2
    simp only [DelimitedRowParser.parseLoop] at h
    split at h
    · simp only [Except.ok.injEq, Prod.mk.injEq] at h
      obtain ⟨-, -, rfl, rfl⟩ := h
      exact ⟨h1, h2⟩
    · split at h
      · split at h
        · exact absurd h (by simp)
        · refine ih _ _ (count + 1) rest field2 tmp2 count2 h (by omega) ?_
          intro _
          by_cases hovc : is_overfilled p.max_fields count = true
          · have hb := (is_overfilled_eq_true _ _).mp hovc
            have htmp : tmp ≠ [] := h2 (by omega)
            simpa [row_process_field, hovc] using htmp
          · simp [row_process_field, hovc]
      · split at h
        · exact ih _ _ count rest field2 tmp2 count2 h h1 h2
        · exact ih _ _ count rest field2 tmp2 count2 h h1 h2

/-- C10: the running field count of `DelimitedRowParser::parse_row`
starts at 1 (field 1 is in progress from the start), so the default
configuration maps an exhausted stream and an empty line to the
single-field row `[""]`, and any row the call stores (as opposed to
leaving the caller's buffer untouched) is never the empty list. -/
theorem parse_row_at_least_one_field (buf : List (List Char)) :
    defaultRowParser.parse_row [] buf = .ok [] [[]]
    ∧ defaultRowParser.parse_row ['\n'] buf = .ok [] [[]]
    ∧ ∀ (q : DelimitedRowParser) (input rest : List Char)
        (out : List (List Char)),
      q.parse_row input buf = .ok rest out → out = buf ∨ out ≠ [] := by
  refine ⟨rfl, rfl, ?_⟩
  intro q input rest out h
  rw [DelimitedRowParser.parse_row] at h
  rcases hL : q.parseLoop input [] [] 1 with ⟨e, r⟩ | ⟨r, f2, t2, c2⟩
  · rw [hL] at h
    exact absurd h (by simp [DelimitedRowParser.afterLoop])
  · rw [hL, DelimitedRowParser.afterLoop] at h
    obtain ⟨hc1, hc2⟩ := q.parseLoop_invariant input [] [] 1 r f2 t2 c2 hL
      (by omega) (fun hh => absurd hh (by omega))
    rw [DelimitedRowParser.boundsCheck] at h
    split at h
    · exact absurd h (by simp)
    · split at h
      · exact absurd h (by simp)
      · split at h
        · simp only [ParseResult.ok.injEq] at h
          refine Or.inr ?_
          rw [← h.2]
          by_cases hovc : is_overfilled q.max_fields c2 = true
          · have hb := (is_overfilled_eq_true _ _).mp hovc
            have ht2 : t2 ≠ [] := hc2 (by omega)
            simpa [row_process_field, hovc] using ht2
          · simp [row_process_field, hovc]
        · simp only [ParseResult.ok.injEq] at h
          exact Or.inl h.2.symm

theorem FieldParser.quotaCheck_err_buffer (p : FieldParser) (requested : Int)
    (buf : List (List Char)) (rest : List Char) (tmp : List (List Char))
    (count : Int) (e : ParseError) (r : List Char) (out : List (List Char))
    (h : p.quotaCheck requested buf rest tmp count = .err e r out) :
    out = buf := by
  rw [FieldParser.quotaCheck] at h
  split at h
  · injection h with h1 h2 h3
    exact h3.symm
  · split at h
    · exact absurd h (by simp)
    · exact absurd h (by simp)

theorem FieldParser.postLoop_err_buffer (p : FieldParser) (requested : Int)
    (buf : List (List Char)) (rest field : List Char)
    (tmp : List (List Char)) (count : Int) (e : ParseError) (r : List Char)
    (out : List (List Char))
    (h : p.postLoop requested buf rest field tmp count = .err e r out) :
    out = buf := by
  rw [FieldParser.postLoop] at h
  split at h
  · split at h
    · injection h with h1 h2 h3
      exact h3.symm
    · exact p.quotaCheck_err_buffer requested buf rest _ _ e r out h
  · exact p.quotaCheck_err_buffer requested buf rest _ _ e r out h

/-- C7: every enforcement failure (`InvalidArgument`, `EmptyField`,
`MissingFields`, `UnexpectedFields`) of either scanner leaves the
caller-owned output buffer exactly as it was before the call; the error
outcome's stream component records wherever reading stopped. -/
theorem enforcement_error_buffer_unchanged (p : FieldParser)
    (q : DelimitedRowParser) (input input2 : List Char)
    (buf buf2 : List (List Char)) (requested : Int) :
    (∀ (e : ParseError) (r : List Char) (out : List (List Char)),
      p.parse_fields input buf requested = .err e r out → out = buf)
    ∧ ∀ (e : ParseError) (r : List Char) (out : List (List Char)),
      q.parse_row input2 buf2 = .err e r out → out = buf2 := by
  constructor
  · intro e r out h
    rw [FieldParser.parse_fields] at h
    split at h
    · injection h with h1 h2 h3
      exact h3.symm
    · rcases hL : p.parseLoop requested input [] [] 0 with ⟨e2, r2⟩ |
        ⟨r2, f2, t2, c2⟩
      · rw [hL, FieldParser.afterLoop] at h
        injection h with h1 h2 h3
        exact h3.symm
      · rw [hL, FieldParser.afterLoop] at h
        exact p.postLoop_err_buffer requested buf r2 f2 t2 c2 e r out h
  · intro e r out h
    rw [DelimitedRowParser.parse_row] at h
    rcases hL : q.parseLoop input2 [] [] 1 with ⟨e2, r2⟩ | ⟨r2, f2, t2, c2⟩
    · rw [hL, DelimitedRowParser.afterLoop] at h
      injection h with h1 h2 h3
      exact h3.symm
    · rw [hL, DelimitedRowParser.afterLoop,
        DelimitedRowParser.boundsCheck] at h
      split at h
      · injection h with h1 h2 h3
        exact h3.symm
      · split at h
        · injection h with h1 h2 h3
          exact h3.symm
        · split at h
          · exact absurd h (by simp)
          · exact absurd h (by simp)

theorem FieldParser.quotaCheck_filterStream (p : FieldParser)
    (requested : Int) (buf : List (List Char)) (g : List Char → List Char)
    (rest : List Char) (tmp : List (List Char)) (count : Int) :
    p.quotaCheck requested buf (g rest) tmp count
      = filterStream g (p.quotaCheck requested buf rest tmp count) := by
  by_cases h1 : count < requested ∧ p.enforce_field_number = true
  · simp [FieldParser.quotaCheck, h1, filterStream]
  · by_cases h2 : (count < requested ∧ p.ignore_underfull_data = false)
        ∨ count = requested
    · simp [FieldParser.quotaCheck, h1, h2, filterStream]
    · simp [FieldParser.quotaCheck, h1, h2, filterStream]

theorem FieldParser.postLoop_filterStream (p : FieldParser)
    (requested : Int) (buf : List (List Char)) (g : List Char → List Char)
    (rest field : List Char) (tmp : List (List Char)) (count : Int) :
    p.postLoop requested buf (g rest) field tmp count
      = filterStream g (p.postLoop requested buf rest field tmp count) := by
  rw [FieldParser.postLoop, FieldParser.postLoop]
  by_cases h1 : count < requested
  · rw [if_pos h1, if_pos h1]
    cases hpf : process_field p.field_parsers field tmp (count + 1) with
    | error e => simp [filterStream]
    | ok tmp2 =>
      exact p.quotaCheck_filterStream requested buf g rest tmp2 (count + 1)
  · rw [if_neg h1, if_neg h1]
    exact p.quotaCheck_filterStream requested buf g rest tmp count

theorem FieldParser.postLoop_masked_erase (p : FieldParser)
    (requested : Int) (buf : List (List Char)) (rest field : List Char)
    (tmp : List (List Char)) (count : Int) :
    FieldParser.postLoop {p with masked := []} requested buf rest field tmp
      count = p.postLoop requested buf rest field tmp count := rfl

/-- When the masked set is disjoint from the delimiter and terminator
sets, the scan loop on a stream behaves exactly like a mask-free scan of
the stream with all masked characters removed. -/
theorem FieldParser.parseLoop_masked (p : FieldParser) (requested : Int)
    (hdisj : ∀ c ∈ p.masked, c ∉ p.delimiters ∧ c ∉ p.terminators) :
    ∀ (input field : List Char) (tmp : List (List Char)) (count : Int),
    FieldParser.parseLoop {p with masked := []} requested
        (input.filter (unmasked p)) field tmp count
      = exceptFilter (fun s => s.filter (unmasked p))
          (p.parseLoop requested input field tmp count) := by
  intro input
  induction input with
  | nil =>
    intro field tmp count
    simp [FieldParser.parseLoop, exceptFilter]
  | cons c cs ih =>
    intro field tmp count
    by_cases hm : c ∈ p.masked
    · obtain ⟨hmd, hmt⟩ := hdisj c hm
      have hR : p.parseLoop requested (c :: cs) field tmp count
          = p.parseLoop requested cs field tmp count := by
        rw [FieldParser.parseLoop, if_neg hmt, if_neg hmd, if_pos hm]
      rw [List.filter_cons_of_neg (by simp [unmasked, hm]), hR]
      exact ih field tmp count
    · rw [List.filter_cons_of_pos (by simp [unmasked, hm])]
      by_cases ht : c ∈ p.terminators
      · simp [FieldParser.parseLoop, ht, exceptFilter]
      · by_cases hd : c ∈ p.delimiters
        · cases hpf : process_field p.field_parsers field tmp (count + 1) with
          | error e =>
            have hL1 : FieldParser.parseLoop {p with masked := []} requested
                  (c :: cs.filter (unmasked p)) field tmp count
                = .error (e, cs.filter (unmasked p)) := by
              simp [FieldParser.parseLoop, ht, hd, hpf]
            have hR1 : p.parseLoop requested (c :: cs) field tmp count
                = .error (e, cs) := by
              simp [FieldParser.parseLoop, ht, hd, hpf]
            rw [hL1, hR1]
            simp [exceptFilter]
          | ok tmp2 =>
            have hL1 : FieldParser.parseLoop {p with masked := []} requested
                  (c :: cs.filter (unmasked p)) field tmp count
                = if count + 1 = requested then
                    .ok (cs.filter (unmasked p), [], tmp2, count + 1)
                  else
                    FieldParser.parseLoop {p with masked := []} requested
                      (cs.filter (unmasked p)) [] tmp2 (count + 1) := by
              simp [FieldParser.parseLoop, ht, hd, hpf]
            have hR1 : p.parseLoop requested (c :: cs) field tmp count
                = if count + 1 = requested then .ok (cs, [], tmp2, count + 1)
                  else p.parseLoop requested cs [] tmp2 (count + 1) := by
              simp [FieldParser.parseLoop, ht, hd, hpf]
            rw [hL1, hR1]
            by_cases hcr : count + 1 = requested
            · rw [if_pos hcr, if_pos hcr]
              simp [exceptFilter]
            · rw [if_neg hcr, if_neg hcr]
              exact ih [] tmp2 (count + 1)
        · have hR : p.parseLoop requested (c :: cs) field tmp count
              = p.parseLoop requested cs (field ++ [c]) tmp count := by
            rw [FieldParser.parseLoop, if_neg ht, if_neg hd, if_neg hm]
          have hL : FieldParser.parseLoop {p with masked := []} requested
                (c :: cs.filter (unmasked p)) field tmp count
              = FieldParser.parseLoop {p with masked := []} requested
                  (cs.filter (unmasked p)) (field ++ [c]) tmp count := by
            simp [FieldParser.parseLoop, ht, hd]
          rw [hL, hR]
          exact ih (field ++ [c]) tmp count

/-- C8 (amended): for every configuration whose masked set is disjoint
from the delimiter and terminator sets, masked characters are silently
dropped: parsing a stream behaves exactly like the mask-free parse of
the stream with all masked characters removed, so they never appear in a
stored field, never end a field and never stop the scan. -/
theorem parse_fields_masked_dropped (p : FieldParser) (input : List Char)
    (buf : List (List Char)) (requested : Int)
    (hdisj : ∀ c ∈ p.masked, c ∉ p.delimiters ∧ c ∉ p.terminators) :
    FieldParser.parse_fields {p with masked := []}
        (input.filter (unmasked p)) buf requested
      = filterStream (fun s => s.filter (unmasked p))
          (p.parse_fields input buf requested) := by
  rw [FieldParser.parse_fields, FieldParser.parse_fields]
  by_cases hreq : requested < 1
  · rw [if_pos hreq, if_pos hreq]
    simp [filterStream]
  · rw [if_neg hreq, if_neg hreq]
    rw [FieldParser.parseLoop_masked p requested hdisj input [] [] 0]
    rcases hL : p.parseLoop requested input [] [] 0 with ⟨e, r⟩ |
      ⟨r, f2, t2, c2⟩
    · simp [exceptFilter, FieldParser.afterLoop, filterStream]
    · simp only [exceptFilter, FieldParser.afterLoop]
      rw [FieldParser.postLoop_masked_erase]
      exact p.postLoop_filterStream requested buf
        (fun s => s.filter (unmasked p)) r f2 t2 c2

/-- C8 counterexample: with a configuration whose masked set overlaps the
delimiter set (which the claim's universal quantification over
configurations includes), a masked character is still treated as a
delimiter: it ends a field, so the scan of `"a,b\n"` even completes a
two-field quota, unlike the scan of the same stream with the masked
character removed. -/
theorem parse_fields_masked_counterexample :
    ',' ∈ pMask.masked
    ∧ pMask.parse_fields ['a', ',', 'b', '\n'] [] 2 = .ok [] [['a'], ['b']]
    ∧ FieldParser.parse_fields {pMask with masked := []}
        (['a', ',', 'b', '\n'].filter (unmasked pMask)) [] 2
      ≠ filterStream (fun s => s.filter (unmasked pMask))
          (pMask.parse_fields ['a', ',', 'b', '\n'] [] 2) := by
  refine ⟨by decide, by decide, by decide⟩

/-- Witness for C1 at a concrete input: `"a,b\n"` with quota 2 under a
transform registered at index 1 yields `["a_1", "b"]`. -/
theorem parse_fields_exact_quota_witness :
    pW.parse_fields ['a', ',', 'b', '\n'] [] 2
      = .ok [] [['a', '_', '1'], ['b']] := by
  exact parse_fields_exact_quota pW ',' [['a'], ['b']] ['\n'] [] (by decide)
    (by decide) (by decide) (by decide)
    (Or.inr ⟨'\n', [], by decide, rfl⟩)

/-- Witness for C2 at a concrete input: `"a\n"` with quota 3 under the
default enforcing flags fails with `MissingFields`, buffer untouched. -/
theorem parse_fields_underfull_witness :
    pComma.enforce_field_number = true
    ∧ pComma.parse_fields ['a', '\n'] [['z']] 3
      = .err .MissingFields [] [['z']] := by
  refine ⟨rfl, ?_⟩
  exact (parse_fields_underfull pComma ',' [['a']] ['\n'] [['z']] 3
    (by decide) (by decide) (by decide) (by decide)
    (Or.inr ⟨'\n', [], by decide, rfl⟩) (by decide)).1 rfl

/-- Witness for C3 at a concrete input: `"a,b,c\n"` with `max_fields = 2`
and enforcement throws `UnexpectedFields` right after the second comma. -/
theorem parse_row_overfull_throws_witness :
    q3.parse_row ['a', ',', 'b', ',', 'c', '\n'] [['z']]
      = .err .UnexpectedFields ['c', '\n'] [['z']] := by
  exact parse_row_overfull_throws q3 ['a', ',', 'b'] ['c', '\n'] [['z']]
    (by decide) (by decide) (by decide) (by decide) (by decide)

/-- Witness for C5 at a concrete input: a leading delimiter throws
`EmptyField`. -/
theorem parse_fields_empty_field_witness :
    pComma.parse_fields [','] [['z']] 1 = .err .EmptyField [] [['z']] := by
  exact parse_fields_empty_field pComma ',' [] [','] [['z']] 1 (by decide)
    (by decide) (by decide) (by decide)
    (Or.inr (Or.inr ⟨',', [], by decide, by decide, rfl⟩))

/-- Witness for C6 at a concrete input: quota 0 fails with
`InvalidArgument` leaving stream and buffer untouched. -/
theorem parse_fields_invalid_argument_witness :
    (0 : Int) < 1
    ∧ defaultFieldParser.parse_fields ['a'] [['z']] 0
      = .err .InvalidArgument ['a'] [['z']] :=
  ⟨by decide,
    parse_fields_invalid_argument defaultFieldParser ['a'] [['z']] 0
      (by decide)⟩

/-- Witness for C7 at a concrete input: the `InvalidArgument` failure
leaves the buffer `[['z']]` unchanged. -/
theorem enforcement_error_buffer_unchanged_witness :
    defaultFieldParser.parse_fields ['a'] [['z']] 0
      = .err .InvalidArgument ['a'] [['z']]
    ∧ [['z']] = [['z']] := by
  refine ⟨by decide, ?_⟩
  exact (enforcement_error_buffer_unchanged defaultFieldParser
    defaultRowParser ['a'] [] [['z']] [] 0).1 .InvalidArgument ['a'] [['z']]
    (by decide)

/-- Witness for C8 (amended) at a concrete input: with `#` masked and
disjoint from `','` and `'\n'`, parsing `"a#b,c\n"` equals the mask-free
parse of `"ab,c\n"` up to filtering of the remaining stream. -/
theorem parse_fields_masked_dropped_witness :
    FieldParser.parse_fields {pHash with masked := []}
        (['a', '#', 'b', ',', 'c', '\n'].filter (unmasked pHash)) [] 2
      = filterStream (fun s => s.filter (unmasked pHash))
          (pHash.parse_fields ['a', '#', 'b', ',', 'c', '\n'] [] 2) := by
  exact parse_fields_masked_dropped pHash ['a', '#', 'b', ',', 'c', '\n'] [] 2
    (by decide)

/-- Witness for C9 at a concrete input: an exhausted stream under the
default configuration with quota 1 throws `EmptyField`. -/
theorem parse_fields_no_data_empty_field_witness :
    defaultFieldParser.parse_fields [] [['z']] 1
      = .err .EmptyField [] [['z']] := by
  exact parse_fields_no_data_empty_field defaultFieldParser [] [['z']] 1
    (by decide) (Or.inl rfl)

/-- Witness for C10 at a concrete input: an exhausted stream stores the
one-field row `[""]`, which is not the empty list. -/
theorem parse_row_at_least_one_field_witness :
    defaultRowParser.parse_row [] [['x']] = .ok [] [[]]
    ∧ ([[]] = [['x']] ∨ ([[]] : List (List Char)) ≠ []) := by
  refine ⟨(parse_row_at_least_one_field [['x']]).1, ?_⟩
  exact (parse_row_at_least_one_field [['x']]).2.2 defaultRowParser [] [] [[]]
    (parse_row_at_least_one_field [['x']]).1

end StlIosUtilities
